import Mathlib

/-!
Shallow embedding of `monai/metrics/rocauc.py` (ROC AUC metric).

Scores and labels are modelled as rationals (`ℚ`); Python exceptions are
modelled by the `Err` type below, distinguishing the two `ValueError`s the
module raises explicitly (by their message), the interpreter's
`ZeroDivisionError` from the bare division in `_calculate`, and a generic
`runtimeError` for tensor-library failures on mismatched shapes (e.g.
iterating a 0-d tensor, or transposing a 1-d tensor).

The main functions are written in traced form (`…T`), returning the result
paired with the number of `compare` invocations actually executed before
the function returned or raised, mirroring the source's evaluation order;
the plain versions project out the result.
-/

namespace rocauc

/-- Python exceptions raised by the rocauc module. -/
inductive Err where
  | valueError (msg : String)
  | zeroDivisionError
  | runtimeError
  deriving DecidableEq, Repr

/-- Return value of `compute_roc_auc`: a scalar AUC, NaN (from `np.mean`
of an empty list), or the per-class list returned for `average=None`. -/
inductive AUCResult where
  | scalar (r : ℚ)
  | nan
  | perClass (rs : List ℚ)
  deriving DecidableEq, Repr

/-- The inner `compare` of `_calculate`: 1 if `a > b`, 0.5 on a tie, else 0. -/
def compare (a b : ℚ) : ℚ :=
  if a > b then 1 else if a = b then 1/2 else 0

/-- The index-partition loop of `_calculate`, run over `enumerate(y)`:
indices with label 1 go to `pos_indexes`, label 0 to `neg_indexes`, and any
other label raises `ValueError('labels should be binary values.')` (at the
first offending entry, before any score comparison). -/
def collectIndexes : List (Nat × ℚ) → Except Err (List Nat × List Nat)
  | [] => .ok ([], [])
  | (i, v) :: rest =>
    if v = 1 then
      match collectIndexes rest with
      | .ok (pos, neg) => .ok (i :: pos, neg)
      | .error e => .error e
    else if v = 0 then
      match collectIndexes rest with
      | .ok (pos, neg) => .ok (pos, i :: neg)
      | .error e => .error e
    else .error (.valueError "labels should be binary values.")

/-- The function `_calculate(y, y_pred)` of rocauc.py, traced with the number of
`compare` calls performed.  The double comprehension evaluates all
`|pos|·|neg|` comparisons before the division, so when `pos` or `neg` is
empty the bare `auc / (len(pos) * len(neg))` raises `ZeroDivisionError`
after 0 comparisons.  Indexing `y_pred[i]` is modelled with `getD … 0`;
the out-of-range default is never reached when `y` and `y_pred` have equal
length, which every theorem below assumes (Python would raise IndexError). -/
def _calculateT (y y_pred : List ℚ) : Except Err ℚ × Nat :=
  match collectIndexes y.enum with
  | .error e => (.error e, 0)
  | .ok (posIndexes, negIndexes) =>
    let auc := (posIndexes.map (fun i =>
      (negIndexes.map (fun j => compare (y_pred.getD i 0) (y_pred.getD j 0))).sum)).sum
    let cnt := posIndexes.length * negIndexes.length
    if posIndexes.length * negIndexes.length = 0 then
      (.error .zeroDivisionError, cnt)
    else
      (.ok (auc / ((posIndexes.length * negIndexes.length : ℕ) : ℚ)), cnt)

/-- The function `_calculate(y, y_pred)` of rocauc.py (result only). -/
def _calculate (y y_pred : List ℚ) : Except Err ℚ :=
  (_calculateT y y_pred).1

/-- Tensors, as fed to `compute_roc_auc`: rank-1 vectors, rank-2 matrices
(lists of rows; torch tensors are rectangular, which theorems assume where
needed), or a tensor of any other rank `n` (whose payload is irrelevant:
the function rejects it before touching its data). -/
inductive Tensor where
  | d1 (v : List ℚ)
  | d2 (m : List (List ℚ))
  | dOther (ndim : Nat)

/-- Whether `t.ndimension()` is one of the ranks the code accepts. -/
def rankOk : Tensor → Bool
  | .dOther _ => false
  | _ => true

/-- Model of `torch.Tensor.transpose(0, 1)` on a rectangular matrix: row
`j` of the result is column `j` of the input (the number of columns being
the length of the first row, the matrix's `shape[1]`). -/
def transposeM (m : List (List ℚ)) : List (List ℚ) :=
  (List.range (m.headD []).length).map (fun j => m.map (fun row => row.getD j 0))

/-- The eager list comprehension `[_calculate(y_, y_pred_) for y_, y_pred_
in zip(y, y_pred)]`, traced: classes are evaluated left to right, the first
exception aborts the comprehension, and comparison counts accumulate. -/
def aucValuesT : List (List ℚ × List ℚ) → Except Err (List ℚ) × Nat
  | [] => (.ok [], 0)
  | (yc, pc) :: rest =>
    match _calculateT yc pc with
    | (.error e, c) => (.error e, c)
    | (.ok a, c) =>
      match aucValuesT rest with
      | (.error e, c2) => (.error e, c + c2)
      | (.ok as, c2) => (.ok (a :: as), c + c2)

/-- Wrap a binary-AUC outcome as a `compute_roc_auc` result. -/
def liftScalar : Except Err ℚ × Nat → Except Err AUCResult × Nat
  | (.ok q, c) => (.ok (.scalar q), c)
  | (.error e, c) => (.error e, c)

/-- The function `compute_roc_auc` of rocauc.py, traced with the number of `compare`
calls executed.  The external collaborators — elementwise
`Tensor.sigmoid`, rowwise `softmax(dim=1)`, and `monai.networks.utils.one_hot`
— are parameters (`sigmoidF`, `softmaxRow`, `oneHotF`): they live outside
this module.  `average` is `none` for Python `None`, `some s` for the
string `s`.  Mismatched-shape uses of the tensor library (truth value of a
multi-element tensor row, iterating a 0-d tensor in `flat`, transposing a
1-d tensor, `np.average` length mismatch) are modelled as `runtimeError`. -/
def compute_roc_aucT (sigmoidF : ℚ → ℚ) (softmaxRow : List ℚ → List ℚ)
    (oneHotF : Tensor → Nat → List (List ℚ)) (y_pred y : Tensor)
    (to_onehot_y add_softmax add_sigmoid : Bool) (average : Option String) :
    Except Err AUCResult × Nat :=
  if add_softmax && add_sigmoid then
    (.error (.valueError "add_softmax=True and add_sigmoid=True are not compatible."), 0)
  else if !rankOk y_pred then
    (.error (.valueError "predictions should be of shape (batch_size, n_classes) or (batch_size, )."), 0)
  else if !rankOk y then
    (.error (.valueError "targets should be of shape (batch_size, n_classes) or (batch_size, )."), 0)
  else
    let y_pred : Tensor := match y_pred with
      | .d2 m => if (m.headD []).length = 1 then .d1 (m.map (fun r => r.headD 0)) else .d2 m
      | t => t
    let y : Tensor := match y with
      | .d2 m => if (m.headD []).length = 1 then .d1 (m.map (fun r => r.headD 0)) else .d2 m
      | t => t
    let y_pred : Tensor := if add_sigmoid then
        match y_pred with
        | .d1 v => .d1 (v.map sigmoidF)
        | .d2 m => .d2 (m.map (List.map sigmoidF))
        | t => t
      else y_pred
    match y_pred with
    | .d1 v =>
      -- to_onehot_y / add_softmax are ignored here, with only an advisory warning
      (match y with
       | .d1 w => liftScalar (_calculateT w v)
       | .d2 [] => liftScalar (_calculateT [] v)
       | .d2 (_ :: _) => (.error .runtimeError, 0)
       | .dOther _ => (.error .runtimeError, 0))
    | .d2 m =>
      let n_classes := (m.headD []).length
      let y := if to_onehot_y then Tensor.d2 (oneHotF y n_classes) else y
      let m := if add_softmax then m.map softmaxRow else m
      if average = some "micro" then
        match y with
        | .d2 ym => liftScalar (_calculateT ym.flatten m.flatten)
        | _ => (.error .runtimeError, 0)
      else
        match y with
        | .d2 ym =>
          let yT := transposeM ym
          let pT := transposeM m
          (match aucValuesT (yT.zip pT) with
           | (.error e, c) => (.error e, c)
           | (.ok aucValues, c) =>
             match average with
             | none => (.ok (.perClass aucValues), c)
             | some "macro" =>
               if aucValues.length = 0 then (.ok .nan, c)
               else (.ok (.scalar (aucValues.sum / (aucValues.length : ℚ))), c)
             | some "weighted" =>
               let weights := yT.map List.sum
               if weights.length ≠ aucValues.length then (.error .runtimeError, c)
               else if weights.sum = 0 then (.error .zeroDivisionError, c)
               else (.ok (.scalar (((aucValues.zip weights).map (fun q : ℚ × ℚ => q.1 * q.2)).sum
                 / weights.sum)), c)
             | some _ => (.error (.valueError "unsupported average method."), c))
        | .d1 _ => (.error .runtimeError, 0)
        | .dOther _ => (.error .runtimeError, 0)
    | .dOther _ => (.error .runtimeError, 0)

/-- The function `compute_roc_auc` of rocauc.py (result only). -/
def compute_roc_auc (sigmoidF : ℚ → ℚ) (softmaxRow : List ℚ → List ℚ)
    (oneHotF : Tensor → Nat → List (List ℚ)) (y_pred y : Tensor)
    (to_onehot_y add_softmax add_sigmoid : Bool) (average : Option String) :
    Except Err AUCResult :=
  (compute_roc_aucT sigmoidF softmaxRow oneHotF y_pred y
    to_onehot_y add_softmax add_sigmoid average).1

/-! ### Spec-side characterizations -/

/-- The indices `pos` of the spec: positions whose label is 1, in order. -/
def posIndexesOf (y : List ℚ) : List Nat :=
  (y.enum.filter (fun pr => decide (pr.2 = 1))).map Prod.fst

/-- The indices `neg` of the spec: positions whose label is 0, in order. -/
def negIndexesOf (y : List ℚ) : List Nat :=
  (y.enum.filter (fun pr => decide (pr.2 = 0))).map Prod.fst

/-- Scores at positive positions, in order. -/
def posScores (y p : List ℚ) : List ℚ :=
  ((y.zip p).filter (fun pr => decide (pr.1 = 1))).map Prod.snd

/-- Scores at negative positions, in order. -/
def negScores (y p : List ℚ) : List ℚ :=
  ((y.zip p).filter (fun pr => decide (pr.1 = 0))).map Prod.snd

/-- The pairwise comparator sum of the spec: `Σ_{a ∈ A} Σ_{b ∈ B} compare a b`. -/
def dblSum (A B : List ℚ) : ℚ :=
  (A.map (fun a => (B.map (fun b => compare a b)).sum)).sum

/-! ### The partition loop versus the spec's filters -/

/-- On valid labels, the partition loop returns exactly the label-1 and
label-0 positions, in order. -/
theorem collectIndexes_eq_filter (l : List (Nat × ℚ))
    (h : ∀ pr ∈ l, pr.2 = 0 ∨ pr.2 = 1) :
    collectIndexes l = .ok ((l.filter (fun pr => decide (pr.2 = 1))).map Prod.fst,
      (l.filter (fun pr => decide (pr.2 = 0))).map Prod.fst) := by
  induction l with
  | nil => rfl
  | cons hd tl ih =>
    have hhd := h hd (by simp)
    have htl : ∀ pr ∈ tl, pr.2 = 0 ∨ pr.2 = 1 := fun pr hm => h pr (by simp [hm])
    obtain ⟨i, v⟩ := hd
    rcases hhd with h0 | h1
    · simp only at h0
      subst h0
      simp [collectIndexes, ih htl]
    · simp only at h1
      subst h1
      simp [collectIndexes, ih htl]

/-- A label outside {0,1} anywhere in the list makes the partition loop
raise `ValueError('labels should be binary values.')`. -/
theorem collectIndexes_invalid (l : List (Nat × ℚ))
    (h : ∃ pr ∈ l, pr.2 ≠ 0 ∧ pr.2 ≠ 1) :
    collectIndexes l = .error (.valueError "labels should be binary values.") := by
  induction l with
  | nil => simp at h
  | cons hd tl ih =>
    obtain ⟨i, v⟩ := hd
    by_cases h1 : v = 1
    · subst h1
      have : ∃ pr ∈ tl, pr.2 ≠ 0 ∧ pr.2 ≠ 1 := by
        obtain ⟨pr, hm, hpr⟩ := h
        rcases List.mem_cons.1 hm with rfl | hm'
        · exact absurd rfl hpr.2
        · exact ⟨pr, hm', hpr⟩
      simp [collectIndexes, ih this]
    · by_cases h0 : v = 0
      · subst h0
        have : ∃ pr ∈ tl, pr.2 ≠ 0 ∧ pr.2 ≠ 1 := by
          obtain ⟨pr, hm, hpr⟩ := h
          rcases List.mem_cons.1 hm with rfl | hm'
          · exact absurd rfl hpr.1
          · exact ⟨pr, hm', hpr⟩
        simp [collectIndexes, ih this]
      · simp [collectIndexes, h0, h1]

/-- With enough scores, zipping labels with scores is the same as reading
the score off each enumerated index. -/
theorem zip_eq_enum_map (y p : List ℚ) (h : y.length ≤ p.length) :
    y.zip p = y.enum.map (fun pr => (pr.2, p.getD pr.1 0)) := by
  apply List.ext_getElem
  · simp [List.length_zip, Nat.min_eq_left h]
  · intro i h1 h2
    have hiy : i < y.length := by simpa using h2
    have hip : i < p.length := lt_of_lt_of_le hiy h
    simp [List.getElem_zip, List.getElem_enum, List.getD_eq_getElem _ _ hip,
      List.getElem?_eq_getElem hip]

/-- Reading scores off the positive indices gives exactly the positive
scores of the zipped view. -/
theorem map_getD_posIndexesOf (y p : List ℚ) (h : y.length ≤ p.length) :
    (posIndexesOf y).map (fun i => p.getD i 0) = posScores y p := by
  rw [posIndexesOf, posScores, zip_eq_enum_map y p h, List.filter_map, List.map_map,
    List.map_map]
  rfl

/-- Reading scores off the negative indices gives exactly the negative
scores of the zipped view. -/
theorem map_getD_negIndexesOf (y p : List ℚ) (h : y.length ≤ p.length) :
    (negIndexesOf y).map (fun i => p.getD i 0) = negScores y p := by
  rw [negIndexesOf, negScores, zip_eq_enum_map y p h, List.filter_map, List.map_map,
    List.map_map]
  rfl

theorem length_posScores (y p : List ℚ) (h : y.length ≤ p.length) :
    (posScores y p).length = (posIndexesOf y).length := by
  rw [← map_getD_posIndexesOf y p h, List.length_map]

theorem length_negScores (y p : List ℚ) (h : y.length ≤ p.length) :
    (negScores y p).length = (negIndexesOf y).length := by
  rw [← map_getD_negIndexesOf y p h, List.length_map]

/-- Labels of the enumerated list are labels of the list. -/
theorem enum_labels_valid {y : List ℚ} (hval : ∀ v ∈ y, v = 0 ∨ v = 1) :
    ∀ pr ∈ y.enum, (pr : ℕ × ℚ).2 = 0 ∨ pr.2 = 1 := by
  intro pr hm
  apply hval
  have : pr.2 ∈ y.enum.map Prod.snd := List.mem_map_of_mem Prod.snd hm
  simpa [List.enum_map_snd] using this

/-- Central characterization of `_calculate`: on equal-length vectors with
valid labels it computes the spec's pairwise ratio over the positive and
negative score lists (raising `ZeroDivisionError` when either is empty),
having performed `|pos|·|neg|` comparisons. -/
theorem _calculateT_spec (y p : List ℚ) (hlen : y.length = p.length)
    (hval : ∀ v ∈ y, v = 0 ∨ v = 1) :
    _calculateT y p =
      ((if (posScores y p).length * (negScores y p).length = 0 then
          .error .zeroDivisionError
        else
          .ok (dblSum (posScores y p) (negScores y p) /
            (((posScores y p).length * (negScores y p).length : ℕ) : ℚ))),
        (posScores y p).length * (negScores y p).length) := by
  have hle : y.length ≤ p.length := le_of_eq hlen
  rw [_calculateT, collectIndexes_eq_filter y.enum (enum_labels_valid hval)]
  rw [show ((y.enum.filter (fun pr => decide (pr.2 = 1))).map Prod.fst) = posIndexesOf y
      from rfl,
    show ((y.enum.filter (fun pr => decide (pr.2 = 0))).map Prod.fst) = negIndexesOf y
      from rfl]
  have hnum : ((posIndexesOf y).map (fun i =>
      ((negIndexesOf y).map (fun j => compare (p.getD i 0) (p.getD j 0))).sum)).sum
      = dblSum (posScores y p) (negScores y p) := by
    rw [← map_getD_posIndexesOf y p hle, ← map_getD_negIndexesOf y p hle]
    simp [dblSum, List.map_map, Function.comp_def]
  rw [length_posScores y p hle, length_negScores y p hle]
  simp only [hnum]
  by_cases h0 : (posIndexesOf y).length * (negIndexesOf y).length = 0 <;> simp [h0]

/-! ### Elementary properties of the comparator and the pairwise sum -/

theorem compare_nonneg (a b : ℚ) : 0 ≤ compare a b := by
  unfold compare
  split
  · norm_num
  · split <;> norm_num

theorem compare_le_one (a b : ℚ) : compare a b ≤ 1 := by
  unfold compare
  split
  · norm_num
  · split <;> norm_num

/-- Symmetry of the comparator: each ordered pair and its swap contribute 1. -/
theorem compare_add_swap (a b : ℚ) : compare a b + compare b a = 1 := by
  rcases lt_trichotomy a b with h | h | h
  · have h1 : ¬ a > b := lt_asymm h
    have h2 : a ≠ b := ne_of_lt h
    simp [compare, h1, h2, h]
  · subst h
    simp [compare]
    norm_num
  · have h1 : ¬ b > a := lt_asymm h
    have h2 : b ≠ a := ne_of_lt h
    simp [compare, h1, h2, h]

/-- The comparator only looks at the order of its arguments. -/
theorem compare_strictMono (f : ℚ → ℚ) (hf : StrictMono f) (a b : ℚ) :
    compare (f a) (f b) = compare a b := by
  rcases lt_trichotomy a b with h | h | h
  · have h1 : ¬ a > b := lt_asymm h
    have h2 : a ≠ b := ne_of_lt h
    have h1' : ¬ f a > f b := lt_asymm (hf h)
    have h2' : f a ≠ f b := ne_of_lt (hf h)
    simp [compare, h1, h2, h1', h2']
  · subst h
    simp [compare]
  · have h1 : f a > f b := hf h
    simp [compare, h, h1]

theorem sum_map_const_q {α : Type} (l : List α) (c : ℚ) :
    (l.map (fun _ => c)).sum = l.length * c := by
  induction l with
  | nil => simp
  | cons hd tl ih => simp [ih]; ring

theorem sum_map_sub_q {α : Type} (l : List α) (f g : α → ℚ) :
    (l.map (fun a => f a - g a)).sum = (l.map f).sum - (l.map g).sum := by
  induction l with
  | nil => simp
  | cons hd tl ih => simp [ih]; ring

/-- Fubini for list double sums. -/
theorem sum_map_comm {α β : Type} (A : List α) (B : List β) (f : α → β → ℚ) :
    (A.map (fun a => (B.map (fun b => f a b)).sum)).sum
      = (B.map (fun b => (A.map (fun a => f a b)).sum)).sum := by
  induction A with
  | nil => simp [sum_map_const_q]
  | cons hd tl ih =>
    have : (B.map (fun b => f hd b + (tl.map (fun a => f a b)).sum)).sum
        = (B.map (fun b => f hd b)).sum + (B.map (fun b => (tl.map (fun a => f a b)).sum)).sum := by
      induction B with
      | nil => simp
      | cons b bs ihb => simp [ihb]; ring
    simp only [List.map_cons, List.sum_cons, ih, this]

theorem dblSum_nonneg (A B : List ℚ) : 0 ≤ dblSum A B := by
  apply List.sum_nonneg
  intro x hx
  obtain ⟨a, _, rfl⟩ := List.mem_map.1 hx
  apply List.sum_nonneg
  intro z hz
  obtain ⟨b, _, rfl⟩ := List.mem_map.1 hz
  exact compare_nonneg a b

theorem dblSum_le (A B : List ℚ) : dblSum A B ≤ (A.length : ℚ) * B.length := by
  unfold dblSum
  calc (A.map (fun a => (B.map (fun b => compare a b)).sum)).sum
      ≤ (A.map (fun _ => (B.length : ℚ))).sum := by
        apply List.sum_le_sum
        intro a _
        calc (B.map (fun b => compare a b)).sum
            ≤ (B.map (fun _ => (1 : ℚ))).sum :=
              List.sum_le_sum (fun b _ => compare_le_one a b)
          _ = (B.length : ℚ) := by rw [sum_map_const_q]; ring
    _ = (A.length : ℚ) * B.length := by rw [sum_map_const_q]

/-- Complement identity: summing the swapped comparator over swapped roles
gives the complementary count. -/
theorem dblSum_swap (A B : List ℚ) :
    dblSum B A = (A.length : ℚ) * B.length - dblSum A B := by
  unfold dblSum
  rw [sum_map_comm B A (fun b a => compare b a)]
  have : ∀ a, (B.map (fun b => compare b a)).sum
      = (B.length : ℚ) - (B.map (fun b => compare a b)).sum := by
    intro a
    have h1 : (B.map (fun b => compare b a)).sum
        = (B.map (fun b => 1 - compare a b)).sum := by
      congr 1
      apply List.map_congr_left
      intro b _
      have := compare_add_swap a b
      linarith
    rw [h1, show (fun b => 1 - compare a b) = (fun b => (fun _ : ℚ => (1:ℚ)) b
        - (fun b => compare a b) b) from rfl, sum_map_sub_q, sum_map_const_q]
    ring
  have h2 : (A.map (fun a => (B.map (fun b => compare b a)).sum)).sum
      = (A.map (fun a => (B.length : ℚ) - (B.map (fun b => compare a b)).sum)).sum := by
    congr 1
    exact List.map_congr_left (fun a _ => this a)
  rw [h2, show (fun a => (B.length : ℚ) - (B.map (fun b => compare a b)).sum)
      = (fun a => (fun _ : ℚ => (B.length : ℚ)) a
        - (fun a => (B.map (fun b => compare a b)).sum) a) from rfl,
    sum_map_sub_q, sum_map_const_q]

/-- The pairwise sum only depends on the two score lists up to permutation. -/
theorem dblSum_perm {A A' B B' : List ℚ} (hA : A.Perm A') (hB : B.Perm B') :
    dblSum A B = dblSum A' B' := by
  unfold dblSum
  have hinner : ∀ a : ℚ, (B.map (fun b => compare a b)).sum
      = (B'.map (fun b => compare a b)).sum :=
    fun a => (hB.map (fun b => compare a b)).sum_eq
  calc (A.map (fun a => (B.map (fun b => compare a b)).sum)).sum
      = (A.map (fun a => (B'.map (fun b => compare a b)).sum)).sum := by
        congr 1
        exact List.map_congr_left (fun a _ => hinner a)
    _ = (A'.map (fun a => (B'.map (fun b => compare a b)).sum)).sum :=
        (hA.map _).sum_eq

/-- A label outside {0,1} makes `_calculate` raise the `ValueError` before
performing any comparison, whatever the scores. -/
theorem _calculateT_invalid (y p : List ℚ) (h : ∃ v ∈ y, v ≠ 0 ∧ v ≠ 1) :
    _calculateT y p = (.error (.valueError "labels should be binary values."), 0) := by
  obtain ⟨v, hv, hv01⟩ := h
  have : ∃ pr ∈ y.enum, (pr : ℕ × ℚ).2 ≠ 0 ∧ pr.2 ≠ 1 := by
    have : v ∈ y.enum.map Prod.snd := by rw [List.enum_map_snd]; exact hv
    obtain ⟨pr, hpr, hsnd⟩ := List.mem_map.1 this
    exact ⟨pr, hpr, by rw [hsnd]; exact hv01.1, by rw [hsnd]; exact hv01.2⟩
  rw [_calculateT, collectIndexes_invalid y.enum this]

/-- The result of `_calculate` (with its comparison count) depends only on the multiset
of (label, score) pairs: consistently reordering samples changes nothing. -/
theorem _calculateT_perm (y p y' p' : List ℚ) (hlen : y.length = p.length)
    (hlen' : y'.length = p'.length) (hperm : (y.zip p).Perm (y'.zip p')) :
    _calculateT y p = _calculateT y' p' := by
  have hy : y.Perm y' := by
    have h1 : (y.zip p).map Prod.fst = y := List.map_fst_zip y p (le_of_eq hlen)
    have h2 : (y'.zip p').map Prod.fst = y' := List.map_fst_zip y' p' (le_of_eq hlen')
    rw [← h1, ← h2]
    exact hperm.map Prod.fst
  by_cases hval : ∀ v ∈ y, v = 0 ∨ v = 1
  · have hval' : ∀ v ∈ y', v = 0 ∨ v = 1 := fun v hv => hval v (hy.mem_iff.2 hv)
    rw [_calculateT_spec y p hlen hval, _calculateT_spec y' p' hlen' hval']
    have hps : (posScores y p).Perm (posScores y' p') := by
      unfold posScores
      exact (hperm.filter (fun pr => decide (pr.1 = 1))).map Prod.snd
    have hns : (negScores y p).Perm (negScores y' p') := by
      unfold negScores
      exact (hperm.filter (fun pr => decide (pr.1 = 0))).map Prod.snd
    rw [hps.length_eq, hns.length_eq, dblSum_perm hps hns]
  · have hbad : ∃ v ∈ y, v ≠ 0 ∧ v ≠ 1 := by
      push_neg at hval
      obtain ⟨v, hv, hne⟩ := hval
      exact ⟨v, hv, hne⟩
    have hbad' : ∃ v ∈ y', v ≠ 0 ∧ v ≠ 1 := by
      obtain ⟨v, hv, hne⟩ := hbad
      exact ⟨v, hy.mem_iff.1 hv, hne⟩
    rw [_calculateT_invalid y p hbad, _calculateT_invalid y' p' hbad']

/-- The index-based numerator of `_calculate` equals the pairwise sum over
the positive and negative score lists. -/
theorem numerator_eq_dblSum (y p : List ℚ) (hle : y.length ≤ p.length) :
    ((posIndexesOf y).map (fun i =>
      ((negIndexesOf y).map (fun j => compare (p.getD i 0) (p.getD j 0))).sum)).sum
      = dblSum (posScores y p) (negScores y p) := by
  rw [← map_getD_posIndexesOf y p hle, ← map_getD_negIndexesOf y p hle]
  simp [dblSum, List.map_map, Function.comp_def]

/-- Applying a function to every score maps through the positive-score list. -/
theorem posScores_map (y p : List ℚ) (f : ℚ → ℚ) :
    posScores y (p.map f) = (posScores y p).map f := by
  unfold posScores
  rw [List.zip_map_right, List.filter_map, List.map_map, List.map_map]
  rfl

theorem negScores_map (y p : List ℚ) (f : ℚ → ℚ) :
    negScores y (p.map f) = (negScores y p).map f := by
  unfold negScores
  rw [List.zip_map_right, List.filter_map, List.map_map, List.map_map]
  rfl

/-- A strictly monotone transform of both score lists leaves the pairwise
sum unchanged. -/
theorem dblSum_map_strictMono (A B : List ℚ) (f : ℚ → ℚ) (hf : StrictMono f) :
    dblSum (A.map f) (B.map f) = dblSum A B := by
  unfold dblSum
  simp [List.map_map, Function.comp_def, compare_strictMono f hf]

/-- Complementing every label turns the positive scores into the negative
scores (1 − v = 1 exactly when v = 0, over the rationals). -/
theorem posScores_complement (y p : List ℚ) :
    posScores (y.map (fun v => 1 - v)) p = negScores y p := by
  unfold posScores negScores
  rw [List.zip_map_left, List.filter_map, List.map_map]
  have hfun : ((fun pr : ℚ × ℚ => decide (pr.1 = 1)) ∘ Prod.map (fun v => 1 - v) id)
      = fun pr : ℚ × ℚ => decide (pr.1 = 0) := by
    funext pr
    simp only [Function.comp_apply, Prod.map_fst]
    rw [decide_eq_decide]
    constructor
    · intro h; linarith
    · intro h; rw [h]; ring
  rw [hfun]
  rfl

theorem negScores_complement (y p : List ℚ) :
    negScores (y.map (fun v => 1 - v)) p = posScores y p := by
  unfold posScores negScores
  rw [List.zip_map_left, List.filter_map, List.map_map]
  have hfun : ((fun pr : ℚ × ℚ => decide (pr.1 = 0)) ∘ Prod.map (fun v => 1 - v) id)
      = fun pr : ℚ × ℚ => decide (pr.1 = 1) := by
    funext pr
    simp only [Function.comp_apply, Prod.map_fst]
    rw [decide_eq_decide]
    constructor
    · intro h; linarith
    · intro h; rw [h]; ring
  rw [hfun]
  rfl

/-! ### Claim theorems -/

/-- C1: for every label vector with entries in {0,1} containing at least one
1 and at least one 0, and every score vector of the same length, `_calculate`
returns exactly the sum over all pairs (i ∈ pos, j ∈ neg) of (1 if
score i > score j, 1/2 on a tie, 0 otherwise), divided by |pos|·|neg|,
where pos lists the indices with label 1 and neg those with label 0; in
particular for labels [0,0,1,1] and scores [0.1, 0.4, 0.35, 0.8] the result
is 0.75. -/
theorem c1_binary_pairwise_ratio :
    (∀ y p : List ℚ, y.length = p.length → (∀ v ∈ y, v = 0 ∨ v = 1) →
      posIndexesOf y ≠ [] → negIndexesOf y ≠ [] →
      _calculate y p = .ok ((((posIndexesOf y).map (fun i =>
          ((negIndexesOf y).map (fun j =>
            if p.getD i 0 > p.getD j 0 then (1 : ℚ)
            else if p.getD i 0 = p.getD j 0 then 1/2 else 0)).sum)).sum)
        / (((posIndexesOf y).length : ℚ) * ((negIndexesOf y).length : ℚ))))
    ∧ _calculate [0, 0, 1, 1] [1/10, 4/10, 35/100, 8/10] = .ok (3/4) := by
  constructor
  · intro y p hlen hval hpos hneg
    have hle := le_of_eq hlen
    have hPL : (posScores y p).length = (posIndexesOf y).length := length_posScores y p hle
    have hNL : (negScores y p).length = (negIndexesOf y).length := length_negScores y p hle
    have hne : (posScores y p).length * (negScores y p).length ≠ 0 := by
      rw [hPL, hNL]
      exact Nat.mul_ne_zero (fun h => hpos (List.length_eq_zero.1 h))
        (fun h => hneg (List.length_eq_zero.1 h))
    rw [_calculate, _calculateT_spec y p hlen hval]
    simp only [if_neg hne]
    rw [← numerator_eq_dblSum y p hle, hPL, hNL, Nat.cast_mul]
    rfl
  · norm_num [_calculate, _calculateT, collectIndexes, compare, List.enum]

/-- C1 witness: the general pairwise formula instantiated at labels [0,1]
and scores [1/4, 3/4], where it evaluates to 1. -/
theorem c1_binary_pairwise_ratio_witness : _calculate [0, 1] [1/4, 3/4] = .ok 1 := by
  have h := c1_binary_pairwise_ratio.1 [0, 1] [1/4, 3/4] rfl (by norm_num)
    (by norm_num [posIndexesOf, List.enum]) (by norm_num [negIndexesOf, List.enum])
  have hpos : posIndexesOf [0, 1] = [1] := rfl
  have hneg : negIndexesOf [0, 1] = [0] := rfl
  rw [h, hpos, hneg]
  norm_num [List.getD]

/-- C2 (amended): when the label vector is valid but has no positives or no
negatives, `_calculate` fails deterministically with the interpreter's
`ZeroDivisionError` from the bare division by `len(pos) * len(neg) = 0`
(rather than producing NaN, infinity, or a dedicated documented error). -/
theorem c2_zero_division (y p : List ℚ) (hlen : y.length = p.length)
    (hval : ∀ v ∈ y, v = 0 ∨ v = 1)
    (h0 : posIndexesOf y = [] ∨ negIndexesOf y = []) :
    _calculate y p = .error .zeroDivisionError := by
  have hle := le_of_eq hlen
  have hz : (posScores y p).length * (negScores y p).length = 0 := by
    rw [length_posScores y p hle, length_negScores y p hle]
    rcases h0 with h | h <;> simp [h]
  rw [_calculate, _calculateT_spec y p hlen hval]
  simp only [if_pos hz]

/-- C2 witness: the all-positive label vector [1,1] has no negatives. -/
theorem c2_zero_division_witness :
    _calculate [1, 1] [1/2, 1/2] = .error .zeroDivisionError :=
  c2_zero_division [1, 1] [1/2, 1/2] rfl (by norm_num)
    (Or.inr (by norm_num [negIndexesOf, List.enum]))

/-- C2 counterexample: on an all-negative label vector the failure is the
interpreter's `ZeroDivisionError` — no `UndefinedAUCError` (or any other
explicitly raised, documented error) exists in the code for this case. -/
theorem c2_no_undefined_auc_error :
    _calculate [0, 0] [1/2, 1/2] = .error .zeroDivisionError
      ∧ ∀ msg, Err.zeroDivisionError ≠ .valueError msg := by
  constructor
  · norm_num [_calculate, _calculateT, collectIndexes, List.enum]
  · intro msg h
    cases h

/-- C8: `_calculate` is invariant under any strictly increasing transform
applied uniformly to all scores. -/
theorem c8_strict_mono_invariance (y p : List ℚ) (f : ℚ → ℚ) (hf : StrictMono f)
    (hlen : y.length = p.length) :
    _calculate y (p.map f) = _calculate y p := by
  rw [_calculate, _calculate]
  by_cases hval : ∀ v ∈ y, v = 0 ∨ v = 1
  · have hlen2 : y.length = (p.map f).length := by rw [List.length_map]; exact hlen
    rw [_calculateT_spec y (p.map f) hlen2 hval, _calculateT_spec y p hlen hval,
      posScores_map, negScores_map, dblSum_map_strictMono _ _ f hf,
      List.length_map, List.length_map]
  · have hbad : ∃ v ∈ y, v ≠ 0 ∧ v ≠ 1 := by
      push_neg at hval
      obtain ⟨v, hv, hne⟩ := hval
      exact ⟨v, hv, hne⟩
    rw [_calculateT_invalid y (p.map f) hbad, _calculateT_invalid y p hbad]

/-- C8 witness: shifting every score by 1 leaves the AUC at its value 1. -/
theorem c8_strict_mono_invariance_witness :
    _calculate [0, 1] (List.map (fun x : ℚ => x + 1) [1/4, 3/4])
        = _calculate [0, 1] [1/4, 3/4]
      ∧ _calculate [0, 1] [1/4, 3/4] = .ok 1 := by
  constructor
  · exact c8_strict_mono_invariance [0, 1] [1/4, 3/4] (fun x => x + 1)
      (fun a b h => by simpa) rfl
  · norm_num [_calculate, _calculateT, collectIndexes, compare, List.enum]

/-- C9: any label outside {0,1} makes the computation fail with
`ValueError('labels should be binary values.')`, and on valid labels the
partition loop produces exactly the label-1 indices as `pos` and the
label-0 indices as `neg`. -/
theorem c9_invalid_label_and_partition :
    (∀ y p : List ℚ, (∃ v ∈ y, v ≠ 0 ∧ v ≠ 1) →
      _calculate y p = .error (.valueError "labels should be binary values."))
    ∧ (∀ y : List ℚ, (∀ v ∈ y, v = 0 ∨ v = 1) →
      collectIndexes y.enum = .ok (posIndexesOf y, negIndexesOf y)) := by
  constructor
  · intro y p h
    rw [_calculate, _calculateT_invalid y p h]
  · intro y hval
    exact collectIndexes_eq_filter y.enum (enum_labels_valid hval)

/-- C9 witness: a label value 2 raises the error; on [0,1,0,1] the loop
returns the filter-characterized partition. -/
theorem c9_invalid_label_and_partition_witness :
    _calculate [0, 1, 2] [1, 1, 1] = .error (.valueError "labels should be binary values.")
      ∧ collectIndexes (([0, 1, 0, 1] : List ℚ)).enum
          = .ok (posIndexesOf [0, 1, 0, 1], negIndexesOf [0, 1, 0, 1]) :=
  ⟨c9_invalid_label_and_partition.1 [0, 1, 2] [1, 1, 1]
    ⟨2, by norm_num, by norm_num, by norm_num⟩,
   c9_invalid_label_and_partition.2 [0, 1, 0, 1] (by norm_num)⟩

/-- C10: complementing every label (0 ↔ 1) while keeping the scores turns a
successful AUC `r` into `1 - r`. -/
theorem c10_label_complement (y p : List ℚ) (r : ℚ) (hlen : y.length = p.length)
    (hok : _calculate y p = .ok r) :
    _calculate (y.map (fun v => 1 - v)) p = .ok (1 - r) := by
  by_cases hval : ∀ v ∈ y, v = 0 ∨ v = 1
  · have hle := le_of_eq hlen
    rw [_calculate, _calculateT_spec y p hlen hval] at hok
    by_cases h0 : (posScores y p).length * (negScores y p).length = 0
    · rw [if_pos h0] at hok
      cases hok
    · rw [if_neg h0] at hok
      have hr : r = dblSum (posScores y p) (negScores y p) /
          (((posScores y p).length * (negScores y p).length : ℕ) : ℚ) :=
        (Except.ok.injEq _ _ ▸ congrArg id hok).symm ▸ by
          cases hok
          rfl
      have hval' : ∀ v ∈ y.map (fun v => 1 - v), v = 0 ∨ v = 1 := by
        intro v hv
        obtain ⟨w, hw, rfl⟩ := List.mem_map.1 hv
        rcases hval w hw with h | h
        · right; rw [h]; ring
        · left; rw [h]; ring
      have hlen2 : (y.map (fun v => 1 - v)).length = p.length := by
        rw [List.length_map]; exact hlen
      rw [_calculate, _calculateT_spec _ p hlen2 hval', posScores_complement,
        negScores_complement]
      have h0' : (negScores y p).length * (posScores y p).length ≠ 0 := by
        rw [Nat.mul_comm]; exact h0
      rw [if_neg h0']
      rw [dblSum_swap]
      rw [hr]
      obtain ⟨hp0, hn0⟩ := Nat.mul_ne_zero_iff.1 h0
      have hp : (((posScores y p).length : ℕ) : ℚ) ≠ 0 := Nat.cast_ne_zero.2 hp0
      have hn : (((negScores y p).length : ℕ) : ℚ) ≠ 0 := Nat.cast_ne_zero.2 hn0
      push_cast
      field_simp
      left
      ring
  · exfalso
    have hbad : ∃ v ∈ y, v ≠ 0 ∧ v ≠ 1 := by
      push_neg at hval
      obtain ⟨v, hv, hne⟩ := hval
      exact ⟨v, hv, hne⟩
    rw [_calculate, _calculateT_invalid y p hbad] at hok
    cases hok

/-- C10 witness: complementing [0,1] under scores [1/4, 3/4] sends AUC 1 to 0. -/
theorem c10_label_complement_witness :
    _calculate (List.map (fun v : ℚ => 1 - v) [0, 1]) [1/4, 3/4] = .ok (1 - 1) :=
  c10_label_complement [0, 1] [1/4, 3/4] 1 rfl
    (by norm_num [_calculate, _calculateT, collectIndexes, compare, List.enum])

/-! ### Analysis of successful results -/

/-- If the partition loop succeeds, every label it saw was 0 or 1. -/
theorem collectIndexes_ok_valid (l : List (Nat × ℚ)) (pr : List Nat × List Nat)
    (h : collectIndexes l = .ok pr) : ∀ q ∈ l, (q : ℕ × ℚ).2 = 0 ∨ q.2 = 1 := by
  induction l generalizing pr with
  | nil => simp
  | cons hd tl ih =>
    obtain ⟨i, v⟩ := hd
    intro q hq
    rw [collectIndexes] at h
    by_cases h1 : v = 1
    · rw [if_pos h1] at h
      rcases List.mem_cons.1 hq with rfl | hq'
      · right; exact h1
      · cases htl : collectIndexes tl with
        | ok pr' => exact ih pr' htl q hq'
        | error e => rw [htl] at h; simp at h
    · rw [if_neg h1] at h
      by_cases h0 : v = 0
      · rw [if_pos h0] at h
        rcases List.mem_cons.1 hq with rfl | hq'
        · left; exact h0
        · cases htl : collectIndexes tl with
          | ok pr' => exact ih pr' htl q hq'
          | error e => rw [htl] at h; simp at h
      · rw [if_neg h0] at h
        cases h

/-- A successful `_calculate` run implies valid labels and a result in
the closed interval [0, 1]. -/
theorem _calculateT_ok (y p : List ℚ) (r : ℚ) (c : Nat)
    (h : _calculateT y p = (.ok r, c)) :
    (0 ≤ r ∧ r ≤ 1) ∧ (∀ v ∈ y, v = 0 ∨ v = 1) := by
  rw [_calculateT] at h
  cases hc : collectIndexes y.enum with
  | error e => rw [hc] at h; cases h
  | ok pr =>
    obtain ⟨pos, neg⟩ := pr
    rw [hc] at h
    have hval : ∀ v ∈ y, v = 0 ∨ v = 1 := by
      intro v hv
      have : v ∈ y.enum.map Prod.snd := by rw [List.enum_map_snd]; exact hv
      obtain ⟨q, hq, hsnd⟩ := List.mem_map.1 this
      rw [← hsnd]
      exact collectIndexes_ok_valid y.enum (pos, neg) hc q hq
    refine ⟨?_, hval⟩
    dsimp only at h
    by_cases h0 : pos.length * neg.length = 0
    · rw [if_pos h0] at h; cases h
    · rw [if_neg h0] at h
      have hr : r = (pos.map (fun i =>
          (neg.map (fun j => compare (p.getD i 0) (p.getD j 0))).sum)).sum
            / ((pos.length * neg.length : ℕ) : ℚ) := by
        have hfst := congrArg Prod.fst h
        exact (Except.ok.inj hfst).symm
      have hnum0 : 0 ≤ (pos.map (fun i =>
          (neg.map (fun j => compare (p.getD i 0) (p.getD j 0))).sum)).sum := by
        apply List.sum_nonneg
        intro x hx
        obtain ⟨i, _, rfl⟩ := List.mem_map.1 hx
        apply List.sum_nonneg
        intro z hz
        obtain ⟨j, _, rfl⟩ := List.mem_map.1 hz
        exact compare_nonneg _ _
      have hnum1 : (pos.map (fun i =>
          (neg.map (fun j => compare (p.getD i 0) (p.getD j 0))).sum)).sum
            ≤ (pos.length : ℚ) * neg.length := by
        calc (pos.map (fun i =>
            (neg.map (fun j => compare (p.getD i 0) (p.getD j 0))).sum)).sum
            ≤ (pos.map (fun _ => (neg.length : ℚ))).sum := by
              apply List.sum_le_sum
              intro i _
              calc (neg.map (fun j => compare (p.getD i 0) (p.getD j 0))).sum
                  ≤ (neg.map (fun _ => (1 : ℚ))).sum :=
                    List.sum_le_sum (fun j _ => compare_le_one _ _)
                _ = (neg.length : ℚ) := by rw [sum_map_const_q]; ring
          _ = (pos.length : ℚ) * neg.length := by rw [sum_map_const_q]
      have hden : (0 : ℚ) < ((pos.length * neg.length : ℕ) : ℚ) := by
        have : 0 < pos.length * neg.length := Nat.pos_of_ne_zero h0
        exact_mod_cast this
      constructor
      · rw [hr]
        positivity
      · rw [hr, div_le_one hden]
        push_cast
        exact hnum1

/-- A successful class comprehension yields per-class values in [0,1], each
pair having run `_calculate` successfully. -/
theorem aucValuesT_ok (l : List (List ℚ × List ℚ)) (vs : List ℚ) (c : Nat)
    (h : aucValuesT l = (.ok vs, c)) :
    (∀ v ∈ vs, 0 ≤ v ∧ v ≤ 1)
      ∧ List.Forall₂ (fun (pr : List ℚ × List ℚ) r =>
          ∃ cc, _calculateT pr.1 pr.2 = (.ok r, cc)) l vs := by
  induction l generalizing vs c with
  | nil =>
    rw [aucValuesT] at h
    obtain ⟨h1, -⟩ := Prod.mk.inj h
    cases h1
    exact ⟨by simp, List.Forall₂.nil⟩
  | cons hd tl ih =>
    obtain ⟨yc, pc⟩ := hd
    rw [aucValuesT] at h
    cases hcalc : _calculateT yc pc with
    | mk res cnt =>
      rw [hcalc] at h
      cases res with
      | error e => cases h
      | ok a =>
        cases hrest : aucValuesT tl with
        | mk res2 cnt2 =>
          rw [hrest] at h
          cases res2 with
          | error e => cases h
          | ok as =>
            obtain ⟨h1, -⟩ := Prod.mk.inj h
            cases h1
            obtain ⟨hb, hf⟩ := ih as cnt2 hrest
            have ha := (_calculateT_ok yc pc a cnt hcalc).1
            refine ⟨?_, List.Forall₂.cons ⟨cnt, hcalc⟩ hf⟩
            intro v hv
            rcases List.mem_cons.1 hv with rfl | hv'
            · exact ha
            · exact hb v hv'

/-- If every class pair runs `_calculate` successfully, the comprehension
succeeds. -/
theorem aucValuesT_ok_of_forall (l : List (List ℚ × List ℚ))
    (h : ∀ pr ∈ l, ∃ r cc, _calculateT (pr : List ℚ × List ℚ).1 pr.2 = (.ok r, cc)) :
    ∃ vs c, aucValuesT l = (.ok vs, c) := by
  induction l with
  | nil => exact ⟨[], 0, rfl⟩
  | cons hd tl ih =>
    obtain ⟨r, cc, hcalc⟩ := h hd (by simp)
    obtain ⟨vs, c, hrest⟩ := ih (fun pr hpr => h pr (by simp [hpr]))
    refine ⟨r :: vs, cc + c, ?_⟩
    rw [aucValuesT]
    obtain ⟨yc, pc⟩ := hd
    rw [hcalc, hrest]

theorem valid_sum_nonneg (y : List ℚ) (hval : ∀ v ∈ y, v = 0 ∨ v = 1) :
    0 ≤ y.sum :=
  List.sum_nonneg (fun v hv => by rcases hval v hv with h | h <;> simp [h])

/-- The arithmetic mean of a nonempty list of values in [0,1] is in [0,1]. -/
theorem mean_mem_unit (vs : List ℚ) (hne : vs.length ≠ 0)
    (hb : ∀ v ∈ vs, 0 ≤ v ∧ v ≤ 1) :
    0 ≤ vs.sum / (vs.length : ℚ) ∧ vs.sum / (vs.length : ℚ) ≤ 1 := by
  have hlen : (0 : ℚ) < (vs.length : ℚ) := by
    exact_mod_cast Nat.pos_of_ne_zero hne
  have h0 : 0 ≤ vs.sum := List.sum_nonneg (fun v hv => (hb v hv).1)
  have h1 : vs.sum ≤ (vs.length : ℚ) := by
    calc vs.sum = (vs.map id).sum := by rw [List.map_id]
      _ ≤ (vs.map (fun _ => (1 : ℚ))).sum := List.sum_le_sum (fun v hv => (hb v hv).2)
      _ = (vs.length : ℚ) := by rw [sum_map_const_q]; ring
  exact ⟨by positivity, by rw [div_le_one hlen]; exact h1⟩

/-- A weighted average of values in [0,1] with nonnegative weights of
nonzero total is in [0,1]. -/
theorem weighted_mem_unit (vs ws : List ℚ) (hlen : vs.length = ws.length)
    (hb : ∀ v ∈ vs, 0 ≤ v ∧ v ≤ 1) (hw : ∀ w ∈ ws, 0 ≤ w) (hsum : ws.sum ≠ 0) :
    0 ≤ ((vs.zip ws).map (fun q : ℚ × ℚ => q.1 * q.2)).sum / ws.sum
      ∧ ((vs.zip ws).map (fun q : ℚ × ℚ => q.1 * q.2)).sum / ws.sum ≤ 1 := by
  have hspos : 0 < ws.sum := lt_of_le_of_ne (List.sum_nonneg hw) (Ne.symm hsum)
  have hdot0 : 0 ≤ ((vs.zip ws).map (fun q : ℚ × ℚ => q.1 * q.2)).sum := by
    apply List.sum_nonneg
    intro x hx
    obtain ⟨q, hq, rfl⟩ := List.mem_map.1 hx
    obtain ⟨hv, hw'⟩ := List.of_mem_zip hq
    exact mul_nonneg (hb q.1 hv).1 (hw q.2 hw')
  have hdot1 : ((vs.zip ws).map (fun q : ℚ × ℚ => q.1 * q.2)).sum ≤ ws.sum := by
    calc ((vs.zip ws).map (fun q : ℚ × ℚ => q.1 * q.2)).sum
        ≤ ((vs.zip ws).map (fun q : ℚ × ℚ => q.2)).sum := by
          apply List.sum_le_sum
          intro q hq
          obtain ⟨hv, hw'⟩ := List.of_mem_zip hq
          exact mul_le_of_le_one_left (hw q.2 hw') (hb q.1 hv).2
      _ = ws.sum := by
          rw [show ((vs.zip ws).map (fun q : ℚ × ℚ => q.2))
              = (vs.zip ws).map Prod.snd from rfl,
            List.map_snd_zip vs ws (le_of_eq hlen.symm)]
  exact ⟨by positivity, by rw [div_le_one hspos]; exact hdot1⟩

/-- The scalar AUC values carried by a result: the single scalar, nothing
for NaN, or the per-class entries. -/
def scalarsOf : AUCResult → List ℚ
  | .scalar r => [r]
  | .nan => []
  | .perClass rs => rs

/-- A successful binary branch (direct or micro-flattened) returns a
scalar in [0,1]. -/
theorem liftScalar_ok (w v : List ℚ) (res : AUCResult)
    (h : (liftScalar (_calculateT w v)).1 = .ok res) :
    ∀ x ∈ scalarsOf res, 0 ≤ x ∧ x ≤ 1 := by
  cases hcalc : _calculateT w v with
  | mk rr cnt =>
    rw [hcalc] at h
    cases rr with
    | error e => simp [liftScalar] at h
    | ok q =>
      simp only [liftScalar] at h
      have hres : AUCResult.scalar q = res := Except.ok.inj h
      intro x hx
      rw [← hres] at hx
      simp only [scalarsOf, List.mem_singleton] at hx
      rw [hx]
      exact (_calculateT_ok w v q cnt hcalc).1

theorem forall₂_exists_left {α β : Type} {R : α → β → Prop} {l : List α}
    {l' : List β} (h : List.Forall₂ R l l') : ∀ a ∈ l, ∃ b ∈ l', R a b := by
  induction h with
  | nil => simp
  | cons hr _ ih =>
    intro a ha
    rcases List.mem_cons.1 ha with rfl | ha'
    · exact ⟨_, by simp, hr⟩
    · obtain ⟨b, hb, hrb⟩ := ih a ha'
      exact ⟨b, by simp [hb], hrb⟩

/-- Each label column that went through a successful `_calculate` has a
nonnegative sum. -/
theorem weights_nonneg (yT pT : List (List ℚ)) (hle : yT.length ≤ pT.length)
    (hall : ∀ pr ∈ yT.zip pT,
      ∃ r cc, _calculateT (pr : List ℚ × List ℚ).1 pr.2 = (.ok r, cc)) :
    ∀ w ∈ yT.map List.sum, 0 ≤ w := by
  intro w hw
  obtain ⟨col, hcol, rfl⟩ := List.mem_map.1 hw
  obtain ⟨i, hi, rfl⟩ := List.mem_iff_getElem.1 hcol
  have hip : i < pT.length := lt_of_lt_of_le hi hle
  have hzip : (yT[i], pT[i]) ∈ yT.zip pT := by
    have hiz : i < (yT.zip pT).length := by
      rw [List.length_zip]
      exact lt_min hi hip
    have : (yT.zip pT)[i] = (yT[i], pT[i]) := List.getElem_zip
    rw [← this]
    exact List.getElem_mem hiz
  obtain ⟨r, cc, hcalc⟩ := hall _ hzip
  exact valid_sum_nonneg _ (_calculateT_ok _ _ r cc hcalc).2

/-- C7: whenever `compute_roc_auc` succeeds, every scalar AUC value it
returns — the binary scalar, each entry of the `average=None` per-class
list, and the macro, weighted and micro aggregates — lies in the closed
interval [0, 1], for any external sigmoid/softmax/one-hot collaborators. -/
theorem c7_results_in_unit_interval (sigmoidF : ℚ → ℚ) (softmaxRow : List ℚ → List ℚ)
    (oneHotF : Tensor → Nat → List (List ℚ)) (y_pred y : Tensor)
    (to_onehot_y add_softmax add_sigmoid : Bool) (average : Option String)
    (res : AUCResult)
    (hok : compute_roc_auc sigmoidF softmaxRow oneHotF y_pred y
      to_onehot_y add_softmax add_sigmoid average = .ok res) :
    ∀ x ∈ scalarsOf res, 0 ≤ x ∧ x ≤ 1 := by
  rw [compute_roc_auc, compute_roc_aucT.eq_def] at hok
  split at hok
  · simp at hok
  split at hok
  · simp at hok
  split at hok
  · simp at hok
  dsimp only at hok
  split at hok
  case _ v heqp =>
    split at hok
    case _ w heqy => exact liftScalar_ok w v res hok
    case _ heqy => exact liftScalar_ok [] v res hok
    case _ a b heqy => simp at hok
    case _ n heqy => simp at hok
  case _ m heqp =>
    split at hok
    -- micro branch
    · split at hok
      case _ ym heqy => exact liftScalar_ok _ _ res hok
      case _ t ht => simp at hok
    -- per-class branch
    · split at hok
      case _ ym heqy =>
        split at hok
        case _ e c heq => simp at hok
        case _ vs c heq =>
          obtain ⟨hb, hf⟩ := aucValuesT_ok _ vs c heq
          split at hok
          -- average = None
          · have hres : AUCResult.perClass vs = res := Except.ok.inj hok
            intro x hx
            rw [← hres] at hx
            exact hb x hx
          -- average = 'macro'
          · split at hok
            · have hres : AUCResult.nan = res := Except.ok.inj hok
              intro x hx
              rw [← hres] at hx
              simp [scalarsOf] at hx
            · case _ hlen0 =>
              have hres : AUCResult.scalar (vs.sum / (vs.length : ℚ)) = res :=
                Except.ok.inj hok
              intro x hx
              rw [← hres] at hx
              simp only [scalarsOf, List.mem_singleton] at hx
              rw [hx]
              exact mean_mem_unit vs hlen0 hb
          -- average = 'weighted'
          · split at hok
            · simp at hok
            · case _ hlenne =>
              split at hok
              · simp at hok
              · case _ hws0 =>
                have hres := Except.ok.inj hok
                intro x hx
                rw [← hres] at hx
                simp only [scalarsOf, List.mem_singleton] at hx
                rw [hx]
                push_neg at hlenne
                have hlenvw : vs.length = (List.map List.sum (transposeM ym)).length :=
                  hlenne.symm
                have hliff : (transposeM ym).length ≤ (transposeM
                    (if add_softmax = true then List.map softmaxRow m else m)).length := by
                  have h1 : (List.map List.sum (transposeM ym)).length
                      = (transposeM ym).length := List.length_map _ _
                  have h2 := List.Forall₂.length_eq hf
                  rw [List.length_zip] at h2
                  have : (transposeM ym).length = min (transposeM ym).length
                      (transposeM (if add_softmax = true then List.map softmaxRow m
                        else m)).length := by
                    rw [← h1, ← hlenvw] at *
                    omega
                  omega
                apply weighted_mem_unit
                · exact hlenvw
                · exact hb
                · apply weights_nonneg _ _ hliff
                  intro pr hpr
                  obtain ⟨b, hbmem, cc, hcalc⟩ := forall₂_exists_left hf pr hpr
                  exact ⟨b, cc, hcalc⟩
                · exact hws0
          -- unsupported average
          · simp at hok
      all_goals simp at hok
  case _ n heqp => simp at hok

/-- C7 witness: the binary computation on labels [0,0,1,1], scores
[0.1,0.4,0.35,0.8] succeeds with 3/4, which the theorem places in [0,1]. -/
theorem c7_results_in_unit_interval_witness : 0 ≤ (3 : ℚ)/4 ∧ (3 : ℚ)/4 ≤ 1 :=
  c7_results_in_unit_interval id id (fun _ _ => [])
    (.d1 [1/10, 4/10, 35/100, 8/10]) (.d1 [0, 0, 1, 1]) false false false
    (some "macro") (.scalar (3/4))
    (by norm_num +decide [compute_roc_auc, compute_roc_aucT, liftScalar,
      _calculateT, collectIndexes, compare, List.enum, rankOk])
    (3/4) (by simp [scalarsOf])

/-- C3 counterexample: on 1-D (binary) input the `average` argument is
never consulted, so an unrecognized value like "bogus" does not raise
`UnsupportedAverageError` — the call succeeds. -/
theorem c3_average_ignored_on_1d :
    compute_roc_auc id id (fun _ _ => []) (.d1 [0, 1]) (.d1 [0, 1])
      false false false (some "bogus") = .ok (.scalar 1) := by
  norm_num +decide [compute_roc_auc, compute_roc_aucT, liftScalar, _calculateT,
    collectIndexes, compare, List.enum, rankOk]

/-- C3 (amended): only on 2-D multi-class scores (here with default
transforms, no singleton squeeze, and every per-class binary computation
succeeding) does an `average` outside {macro, weighted, micro, None} fail
with `ValueError('unsupported average method.')`; on 1-D input the
argument is ignored. -/
theorem c3_unsupported_average_on_2d (sigmoidF : ℚ → ℚ)
    (softmaxRow : List ℚ → List ℚ) (oneHotF : Tensor → Nat → List (List ℚ))
    (m ym : List (List ℚ))
    (hm : (m.headD []).length ≠ 1) (hym : (ym.headD []).length ≠ 1)
    (s : String) (hs1 : s ≠ "micro") (hs2 : s ≠ "macro") (hs3 : s ≠ "weighted")
    (hall : ∀ pr ∈ (transposeM ym).zip (transposeM m),
      ∃ r cc, _calculateT (pr : List ℚ × List ℚ).1 pr.2 = (.ok r, cc)) :
    compute_roc_auc sigmoidF softmaxRow oneHotF (.d2 m) (.d2 ym)
      false false false (some s)
      = .error (.valueError "unsupported average method.") := by
  obtain ⟨vs, c, hok⟩ := aucValuesT_ok_of_forall _ hall
  rw [compute_roc_auc]
  have hm2 : (m.head?.getD []).length ≠ 1 := by rwa [← List.headD_eq_head?_getD]
  have hym2 : (ym.head?.getD []).length ≠ 1 := by rwa [← List.headD_eq_head?_getD]
  simp [compute_roc_aucT, rankOk, hm2, hym2, hs1, hs2, hs3, hok]

/-- C3 witness: the amended statement at a concrete 2 × 2 input with
average "bogus". -/
theorem c3_unsupported_average_on_2d_witness :
    compute_roc_auc id id (fun _ _ => []) (.d2 [[1/10, 9/10], [8/10, 2/10]])
      (.d2 [[0, 1], [1, 0]]) false false false (some "bogus")
      = .error (.valueError "unsupported average method.") := by
  apply c3_unsupported_average_on_2d id id (fun _ _ => [])
    [[1/10, 9/10], [8/10, 2/10]] [[0, 1], [1, 0]]
    (by norm_num) (by norm_num) "bogus" (by decide) (by decide) (by decide)
  intro pr hpr
  norm_num [transposeM, List.range_succ, List.getD] at hpr
  obtain ⟨p1, p2⟩ := pr
  rcases hpr with ⟨rfl, rfl⟩ | ⟨rfl, rfl⟩
  · exact ⟨1, 1, by norm_num [_calculateT, collectIndexes, compare, List.enum, List.getD]⟩
  · exact ⟨1, 1, by norm_num [_calculateT, collectIndexes, compare, List.enum, List.getD]⟩

/-- C4 counterexample: with a valid 2 × 2 multi-class input and the
unrecognized average "bogus", both per-class AUCs are computed — two
pairwise comparisons are performed — before the unsupported-average
`ValueError` is raised, so that validation error is not raised before
comparison work. -/
theorem c4_unsupported_average_after_comparisons :
    compute_roc_aucT id id (fun _ _ => []) (.d2 [[1/10, 9/10], [8/10, 2/10]])
      (.d2 [[0, 1], [1, 0]]) false false false (some "bogus")
      = (.error (.valueError "unsupported average method."), 2) := by
  norm_num +decide [compute_roc_aucT, liftScalar, aucValuesT, transposeM,
    _calculateT, collectIndexes, compare, List.enum, rankOk, List.range_succ]

/-- C4 (amended): the conflicting-transform check and the two shape checks
do fire before any pairwise comparison work — whenever one of those
conditions holds, the comparison count at failure is 0.  (Invalid-label and
unsupported-average errors on multi-class input, by contrast, can be raised
only after earlier classes' comparisons ran, as the counterexample shows.) -/
theorem c4_preamble_errors_before_comparisons (sigmoidF : ℚ → ℚ)
    (softmaxRow : List ℚ → List ℚ) (oneHotF : Tensor → Nat → List (List ℚ))
    (y_pred y : Tensor) (to_onehot_y add_softmax add_sigmoid : Bool)
    (average : Option String)
    (h : (add_softmax = true ∧ add_sigmoid = true)
      ∨ rankOk y_pred = false ∨ rankOk y = false) :
    (compute_roc_aucT sigmoidF softmaxRow oneHotF y_pred y
      to_onehot_y add_softmax add_sigmoid average).2 = 0 := by
  rcases h with ⟨h1, h2⟩ | h | h
  · simp [compute_roc_aucT, h1, h2]
  · by_cases hc : (add_softmax && add_sigmoid) = true <;>
      simp [compute_roc_aucT, hc, h]
  · by_cases hc : (add_softmax && add_sigmoid) = true
    · simp [compute_roc_aucT, hc]
    · by_cases hp : rankOk y_pred <;> simp [compute_roc_aucT, hc, hp, h]

/-- C4 witness: a rank-3 prediction tensor is rejected with zero
comparisons performed. -/
theorem c4_preamble_errors_before_comparisons_witness :
    (compute_roc_aucT id id (fun _ _ => []) (.dOther 3) (.d1 [])
      false false false none).2 = 0 :=
  c4_preamble_errors_before_comparisons id id (fun _ _ => []) (.dOther 3)
    (.d1 []) false false false none (Or.inr (Or.inl rfl))

/-! ### Row-major versus column-major flattening -/

/-- Fubini for flattened grids: enumerating a rectangular grid of values
row-by-row is a permutation of enumerating it column-by-column. -/
theorem flatten_map_swap_perm {α β γ : Type} (A : List α) (B : List β)
    (f : α → β → γ) :
    ((A.map (fun a => B.map (f a))).flatten).Perm
      ((B.map (fun b => A.map (fun a => f a b))).flatten) := by
  rw [← Multiset.coe_eq_coe, ← List.flatMap_def, ← List.flatMap_def,
    ← Multiset.coe_bind, ← Multiset.coe_bind]
  have h1 : ∀ a : α, ((B.map (f a) : List γ) : Multiset γ)
      = Multiset.map (fun b => f a b) (B : Multiset β) :=
    fun a => (Multiset.map_coe _ _).symm
  have h2 : ∀ b : β, ((A.map (fun a => f a b) : List γ) : Multiset γ)
      = Multiset.map (fun a => f a b) (A : Multiset α) :=
    fun b => (Multiset.map_coe _ _).symm
  calc Multiset.bind (↑A) (fun a => ((B.map (f a) : List γ) : Multiset γ))
      = Multiset.bind (↑A) (fun a => Multiset.map (fun b => f a b) (B : Multiset β)) := by
        exact Multiset.bind_congr (fun a _ => h1 a)
    _ = Multiset.bind (↑B) (fun b => Multiset.map (fun a => f a b) (A : Multiset α)) :=
        @Multiset.bind_map_comm _ _ _ (↑A) (↑B) f
    _ = Multiset.bind (↑B) (fun b => ((A.map (fun a => f a b) : List γ) : Multiset γ)) := by
        exact Multiset.bind_congr (fun b _ => (h2 b).symm)

/-- Zipping two flattened matrices with matching row lengths equals
flattening the rowwise zips. -/
theorem zip_flatten (ym m : List (List ℚ))
    (hrows : List.Forall₂ (fun (r s : List ℚ) => r.length = s.length) ym m) :
    ym.flatten.zip m.flatten
      = ((ym.zip m).map (fun pr : List ℚ × List ℚ => pr.1.zip pr.2)).flatten := by
  induction hrows with
  | nil => rfl
  | cons hlen hrest ih =>
    simp only [List.flatten_cons, List.zip_cons_cons, List.map_cons]
    rw [List.zip_append hlen, ih]

/-- A zip of two lists of equal length `n`, written as an indexed map. -/
theorem zip_eq_range_map (a b : List ℚ) (n : Nat) (ha : a.length = n)
    (hb : b.length = n) :
    a.zip b = (List.range n).map (fun j => (a.getD j 0, b.getD j 0)) := by
  apply List.ext_getElem
  · simp [List.length_zip, ha, hb]
  · intro i h1 h2
    have hia : i < a.length := by rw [ha]; simpa using h2
    have hib : i < b.length := by rw [hb]; simpa using h2
    simp [List.getElem_zip, List.getD_eq_getElem _ _ hia, List.getD_eq_getElem _ _ hib,
      List.getElem?_eq_getElem hia, List.getElem?_eq_getElem hib]

theorem flatten_length_const (l : List (List ℚ)) (n : Nat)
    (h : ∀ r ∈ l, r.length = n) : l.flatten.length = l.length * n := by
  induction l with
  | nil => simp
  | cons hd tl ih =>
    simp only [List.flatten_cons, List.length_append, List.length_cons]
    rw [h hd (by simp), ih (fun r hr => h r (by simp [hr]))]
    ring

/-- Row-major flattening of a rectangular matrix pair is a permutation of
column-major flattening, coherently on (label, score) pairs. -/
theorem transpose_zip_perm (ym m : List (List ℚ)) (n : Nat)
    (hb : ym.length = m.length)
    (hn1 : (ym.headD []).length = n) (hn2 : (m.headD []).length = n)
    (hrym : ∀ r ∈ ym, r.length = n) (hrm : ∀ r ∈ m, r.length = n) :
    ((transposeM ym).flatten.zip ((transposeM m).flatten)).Perm
      (ym.flatten.zip m.flatten) := by
  have hrows : List.Forall₂ (fun (r s : List ℚ) => r.length = s.length) ym m :=
    List.forall₂_iff_zip.2 ⟨hb, fun {a b} hab => by
      obtain ⟨ha, hb'⟩ := List.of_mem_zip hab
      rw [hrym a ha, hrm b hb']⟩
  have hTrows : List.Forall₂ (fun (r s : List ℚ) => r.length = s.length)
      (transposeM ym) (transposeM m) := by
    apply List.forall₂_iff_zip.2
    constructor
    · rw [transposeM, transposeM, hn1, hn2]
      simp
    · intro a b hab
      obtain ⟨ha, hb'⟩ := List.of_mem_zip hab
      rw [transposeM] at ha hb'
      obtain ⟨j, -, rfl⟩ := List.mem_map.1 ha
      obtain ⟨k, -, rfl⟩ := List.mem_map.1 hb'
      simp [hb]
  have h1 : (transposeM ym).flatten.zip ((transposeM m).flatten)
      = (((transposeM ym).zip (transposeM m)).map
          (fun pr : List ℚ × List ℚ => pr.1.zip pr.2)).flatten :=
    zip_flatten _ _ hTrows
  have h2 : (transposeM ym).zip (transposeM m)
      = (List.range n).map (fun j => (ym.map (fun row => row.getD j 0),
          m.map (fun row => row.getD j 0))) := by
    rw [transposeM, transposeM, hn1, hn2, List.zip_map']
  have h3 : ∀ j : Nat,
      (ym.map (fun row => row.getD j 0)).zip (m.map (fun row => row.getD j 0))
        = (ym.zip m).map (fun pr : List ℚ × List ℚ => (pr.1.getD j 0, pr.2.getD j 0)) := by
    intro j
    apply List.ext_getElem
    · simp [List.length_zip, hb]
    · intro i h1' h2'
      have hiy : i < ym.length := by
        simp [List.length_zip, hb] at h1'
        omega
      have him : i < m.length := by rw [← hb]; exact hiy
      simp [List.getElem_zip, List.getElem_map]
  have h4 : (((transposeM ym).zip (transposeM m)).map
      (fun pr : List ℚ × List ℚ => pr.1.zip pr.2)).flatten
      = ((List.range n).map (fun j => (ym.zip m).map
          (fun pr : List ℚ × List ℚ => (pr.1.getD j 0, pr.2.getD j 0)))).flatten := by
    rw [h2, List.map_map]
    congr 1
    apply List.map_congr_left
    intro j _
    simp only [Function.comp_apply]
    exact h3 j
  have h5 := flatten_map_swap_perm (List.range n) (ym.zip m)
    (fun j (pr : List ℚ × List ℚ) => (pr.1.getD j 0, pr.2.getD j 0))
  have h6 : ((ym.zip m).map (fun pr : List ℚ × List ℚ => (List.range n).map
      (fun j => (pr.1.getD j 0, pr.2.getD j 0)))).flatten
      = ((ym.zip m).map (fun pr : List ℚ × List ℚ => pr.1.zip pr.2)).flatten := by
    congr 1
    apply List.map_congr_left
    intro pr hpr
    obtain ⟨a, b⟩ := pr
    obtain ⟨ha, hb'⟩ := List.of_mem_zip hpr
    exact (zip_eq_range_map a b n (hrym a ha) (hrm b hb')).symm
  have h7 : ym.flatten.zip m.flatten
      = ((ym.zip m).map (fun pr : List ℚ × List ℚ => pr.1.zip pr.2)).flatten :=
    zip_flatten ym m hrows
  rw [h1, h4, h7]
  exact h6 ▸ h5

/-- If each class pair's `_calculate` returns the corresponding value, the
whole comprehension returns the value list. -/
theorem aucValuesT_of_forall₂ (l : List (List ℚ × List ℚ)) (as : List ℚ)
    (h : List.Forall₂ (fun (pr : List ℚ × List ℚ) a =>
      _calculate pr.1 pr.2 = .ok a) l as) :
    ∃ c, aucValuesT l = (.ok as, c) := by
  induction h with
  | nil => exact ⟨0, rfl⟩
  | @cons pr a tl as' hr hrest ih =>
    obtain ⟨c, hc⟩ := ih
    cases hcalc : _calculateT pr.1 pr.2 with
    | mk rr cnt =>
      rw [_calculate, hcalc] at hr
      cases rr with
      | error e => cases hr
      | ok q =>
        have : q = a := Except.ok.inj hr
        subst this
        refine ⟨cnt + c, ?_⟩
        obtain ⟨yc, pc⟩ := pr
        rw [aucValuesT, hcalc, hc]

/-- A successful `_calculate` saw at least one positive label. -/
theorem _calculate_ok_exists_one (y p : List ℚ) (r : ℚ)
    (h : _calculate y p = .ok r) : ∃ v ∈ y, v = 1 := by
  rw [_calculate, _calculateT] at h
  cases hc : collectIndexes y.enum with
  | error e => rw [hc] at h; cases h
  | ok pr =>
    obtain ⟨pos, neg⟩ := pr
    rw [hc] at h
    dsimp only at h
    by_cases h0 : pos.length * neg.length = 0
    · rw [if_pos h0] at h; cases h
    · have hval : ∀ q ∈ y.enum, (q : ℕ × ℚ).2 = 0 ∨ q.2 = 1 :=
        collectIndexes_ok_valid y.enum (pos, neg) hc
      have hf := collectIndexes_eq_filter y.enum hval
      rw [hc] at hf
      have hpos : pos = (y.enum.filter (fun pr => decide (pr.2 = 1))).map Prod.fst :=
        (Prod.mk.inj (Except.ok.inj hf)).1
      have hposne : pos ≠ [] := by
        intro hnil
        rw [hnil] at h0
        simp at h0
      rw [hpos] at hposne
      have : (y.enum.filter (fun pr => decide (pr.2 = 1))) ≠ [] := by
        intro hnil
        rw [hnil] at hposne
        exact hposne rfl
      obtain ⟨q, hq⟩ := List.exists_mem_of_ne_nil _ this
      have hq1 : q.2 = 1 := by
        have := List.of_mem_filter hq
        simpa using this
      have hqe : q ∈ y.enum := List.mem_of_mem_filter hq
      refine ⟨q.2, ?_, hq1⟩
      have : q.2 ∈ y.enum.map Prod.snd := List.mem_map_of_mem Prod.snd hqe
      rwa [List.enum_map_snd] at this

theorem one_le_sum_of_valid (y : List ℚ) (hval : ∀ v ∈ y, v = 0 ∨ v = 1)
    (hex : ∃ v ∈ y, v = 1) : 1 ≤ y.sum := by
  obtain ⟨v, hv, rfl⟩ := hex
  have hnn : ∀ x ∈ y, (0 : ℚ) ≤ x := fun x hx => by
    rcases hval x hx with h | h <;> simp [h]
  exact List.single_le_sum hnn 1 hv

/-- C5: on 2-D multi-class input (no singleton squeeze, same class count in
labels and scores, at least one class, default transforms) where every class
column's binary AUC computation succeeds with value `auc_i`,
`average='weighted'` returns Σ(auc_i · w_i) / Σ w_i, where `w_i` is the sum
of class `i`'s label column (its positive count). -/
theorem c5_weighted_average (sigmoidF : ℚ → ℚ) (softmaxRow : List ℚ → List ℚ)
    (oneHotF : Tensor → Nat → List (List ℚ)) (m ym : List (List ℚ))
    (hm : (m.headD []).length ≠ 1) (hym : (ym.headD []).length ≠ 1)
    (hc0 : (ym.headD []).length ≠ 0)
    (hTlen : (ym.headD []).length = (m.headD []).length)
    (aucs : List ℚ)
    (hf : List.Forall₂ (fun (pr : List ℚ × List ℚ) a => _calculate pr.1 pr.2 = .ok a)
      ((transposeM ym).zip (transposeM m)) aucs) :
    compute_roc_auc sigmoidF softmaxRow oneHotF (.d2 m) (.d2 ym)
      false false false (some "weighted")
      = .ok (.scalar (((aucs.zip ((transposeM ym).map List.sum)).map
          (fun q : ℚ × ℚ => q.1 * q.2)).sum / ((transposeM ym).map List.sum).sum)) := by
  obtain ⟨c, hok⟩ := aucValuesT_of_forall₂ _ aucs hf
  have hTy : (transposeM ym).length = (ym.headD []).length := by
    rw [transposeM]; simp
  have hTm : (transposeM m).length = (m.headD []).length := by
    rw [transposeM]; simp
  have hzlen : ((transposeM ym).zip (transposeM m)).length = (transposeM ym).length := by
    rw [List.length_zip, hTy, hTm, ← hTlen]
    simp
  have hauclen : aucs.length = (transposeM ym).length := by
    rw [← hf.length_eq, hzlen]
  have hwlen : ((transposeM ym).map List.sum).length = aucs.length := by
    rw [List.length_map, hauclen]
  -- every weight is at least 1
  have hwge : ∀ w ∈ (transposeM ym).map List.sum, (1 : ℚ) ≤ w := by
    intro w hw
    obtain ⟨col, hcol, rfl⟩ := List.mem_map.1 hw
    obtain ⟨i, hi, rfl⟩ := List.mem_iff_getElem.1 hcol
    have hip : i < (transposeM m).length := by rw [hTm, ← hTlen, ← hTy]; exact hi
    have hzmem : ((transposeM ym)[i], (transposeM m)[i]) ∈
        (transposeM ym).zip (transposeM m) := by
      have hiz : i < ((transposeM ym).zip (transposeM m)).length := by
        rw [hzlen]; exact hi
      have : ((transposeM ym).zip (transposeM m))[i]
          = ((transposeM ym)[i], (transposeM m)[i]) := List.getElem_zip
      rw [← this]
      exact List.getElem_mem hiz
    obtain ⟨a, ha, hcalc⟩ := forall₂_exists_left hf _ hzmem
    have hvalid := (_calculateT_ok _ _ a ((_calculateT (transposeM ym)[i]
        (transposeM m)[i]).2) (by
          cases hT : _calculateT (transposeM ym)[i] (transposeM m)[i] with
          | mk rr cnt =>
            rw [_calculate, hT] at hcalc
            cases rr with
            | error e => cases hcalc
            | ok q => simp_all)).2
    exact one_le_sum_of_valid _ hvalid (_calculate_ok_exists_one _ _ a hcalc)
  have hwsum : ((transposeM ym).map List.sum).sum ≠ 0 := by
    have hne : (transposeM ym).map List.sum ≠ [] := by
      rw [← List.length_pos_iff_ne_nil, List.length_map, hTy]
      exact Nat.pos_of_ne_zero hc0
    obtain ⟨w0, hw0⟩ := List.exists_mem_of_ne_nil _ hne
    have h1 : (1 : ℚ) ≤ w0 := hwge w0 hw0
    have h2 : w0 ≤ ((transposeM ym).map List.sum).sum :=
      List.single_le_sum (fun x hx => le_trans (by norm_num) (hwge x hx)) _ hw0
    intro h0
    rw [h0] at h2
    linarith
  rw [compute_roc_auc]
  have hm2 : (m.head?.getD []).length ≠ 1 := by rwa [← List.headD_eq_head?_getD]
  have hym2 : (ym.head?.getD []).length ≠ 1 := by rwa [← List.headD_eq_head?_getD]
  simp +decide [compute_roc_aucT, rankOk, hm2, hym2, hok, hwlen, hwsum]

/-- C5 witness: a 2 × 2 example where both classes have AUC 1 and weight 1,
so the weighted average is 1. -/
theorem c5_weighted_average_witness :
    compute_roc_auc id id (fun _ _ => []) (.d2 [[1/10, 9/10], [8/10, 2/10]])
      (.d2 [[0, 1], [1, 0]]) false false false (some "weighted")
      = .ok (.scalar 1) := by
  have hzip : (transposeM [[0, 1], [1, 0]]).zip
      (transposeM [[(1 : ℚ)/10, 9/10], [8/10, 2/10]])
      = [([0, 1], [1/10, 8/10]), ([1, 0], [9/10, 2/10])] := by
    norm_num [transposeM, List.range_succ, List.getD]
  have hf : List.Forall₂ (fun (pr : List ℚ × List ℚ) a =>
      _calculate pr.1 pr.2 = .ok a)
      ((transposeM [[0, 1], [1, 0]]).zip
        (transposeM [[(1 : ℚ)/10, 9/10], [8/10, 2/10]])) [1, 1] := by
    rw [hzip]
    refine List.Forall₂.cons ?_ (List.Forall₂.cons ?_ List.Forall₂.nil)
    · norm_num [_calculate, _calculateT, collectIndexes, compare, List.enum, List.getD]
    · norm_num [_calculate, _calculateT, collectIndexes, compare, List.enum, List.getD]
  have h := c5_weighted_average id id (fun _ _ => [])
    [[(1 : ℚ)/10, 9/10], [8/10, 2/10]] [[0, 1], [1, 0]]
    (by norm_num) (by norm_num) (by norm_num) (by norm_num) [1, 1] hf
  rw [h]
  norm_num [transposeM, List.range_succ, List.getD]

/-- C6: on rectangular 2-D multi-class input, `average='micro'` returns the
single binary AUC of the row-major flattened label and score matrices
(each (sample, class) entry exactly once, labels and scores in the same
order); and this equals the binary AUC of the concatenation of all class
columns (column-major order), since `_calculate` is invariant under
consistent permutation of the (label, score) pairs. -/
theorem c6_micro_flatten (sigmoidF : ℚ → ℚ) (softmaxRow : List ℚ → List ℚ)
    (oneHotF : Tensor → Nat → List (List ℚ)) (m ym : List (List ℚ)) (n : Nat)
    (hm : (m.headD []).length ≠ 1) (hym : (ym.headD []).length ≠ 1)
    (hb : ym.length = m.length)
    (hn1 : (ym.headD []).length = n) (hn2 : (m.headD []).length = n)
    (hrym : ∀ r ∈ ym, r.length = n) (hrm : ∀ r ∈ m, r.length = n) :
    (compute_roc_auc sigmoidF softmaxRow oneHotF (.d2 m) (.d2 ym)
        false false false (some "micro")
      = (liftScalar (_calculateT ym.flatten m.flatten)).1)
    ∧ _calculate ym.flatten m.flatten
      = _calculate (transposeM ym).flatten ((transposeM m).flatten) := by
  constructor
  · rw [compute_roc_auc]
    have hm2 : (m.head?.getD []).length ≠ 1 := by rwa [← List.headD_eq_head?_getD]
    have hym2 : (ym.head?.getD []).length ≠ 1 := by rwa [← List.headD_eq_head?_getD]
    simp +decide [compute_roc_aucT, rankOk, hm2, hym2]
  · have hperm := transpose_zip_perm ym m n hb hn1 hn2 hrym hrm
    have hTrowsy : ∀ r ∈ transposeM ym, r.length = ym.length := by
      intro r hr
      rw [transposeM] at hr
      obtain ⟨j, -, rfl⟩ := List.mem_map.1 hr
      simp
    have hTrowsm : ∀ r ∈ transposeM m, r.length = m.length := by
      intro r hr
      rw [transposeM] at hr
      obtain ⟨j, -, rfl⟩ := List.mem_map.1 hr
      simp
    have hTleny : (transposeM ym).length = n := by
      rw [transposeM, List.length_map, List.length_range, hn1]
    have hTlenm : (transposeM m).length = n := by
      rw [transposeM, List.length_map, List.length_range, hn2]
    have hlenT : (transposeM ym).flatten.length = (transposeM m).flatten.length := by
      rw [flatten_length_const _ ym.length hTrowsy, flatten_length_const _ m.length hTrowsm,
        hTleny, hTlenm, hb]
    have hlenF : ym.flatten.length = m.flatten.length := by
      rw [flatten_length_const ym n hrym, flatten_length_const m n hrm, hb]
    have := _calculateT_perm (transposeM ym).flatten (transposeM m).flatten
      ym.flatten m.flatten hlenT hlenF hperm
    rw [_calculate, _calculate, this]

/-- C6 witness: the micro average of the 2 × 2 example equals the binary
AUC of the row-major flattening, which equals that of the column-major
flattening. -/
theorem c6_micro_flatten_witness :
    (compute_roc_auc id id (fun _ _ => []) (.d2 [[1/10, 9/10], [8/10, 2/10]])
        (.d2 [[0, 1], [1, 0]]) false false false (some "micro")
      = (liftScalar (_calculateT ([[(0 : ℚ), 1], [1, 0]]).flatten
          ([[(1 : ℚ)/10, 9/10], [8/10, 2/10]]).flatten)).1)
    ∧ _calculate ([[(0 : ℚ), 1], [1, 0]]).flatten
        ([[(1 : ℚ)/10, 9/10], [8/10, 2/10]]).flatten
      = _calculate (transposeM [[(0 : ℚ), 1], [1, 0]]).flatten
          ((transposeM [[(1 : ℚ)/10, 9/10], [8/10, 2/10]]).flatten) :=
  c6_micro_flatten id id (fun _ _ => []) [[(1 : ℚ)/10, 9/10], [8/10, 2/10]]
    [[(0 : ℚ), 1], [1, 0]] 2 (by norm_num) (by norm_num) rfl rfl rfl
    (by intro r hr; simp at hr; rcases hr with rfl | rfl <;> rfl)
    (by intro r hr; simp at hr; rcases hr with rfl | rfl <;> rfl)

end rocauc
